import Mathlib

/-!
Verification development for the ITQ-based LSH index `laItqLsh` of
src/include/lshbox/lsh/laitqlsh.h.

Modelling conventions.

* The C++ `float` values are modelled as elements of an arbitrary linear
  ordered commutative ring `F`; the embedded functions only use `+`, `*`,
  `abs` and order comparisons, so the structure of the algorithms is
  captured exactly (floating point rounding is not modelled).  Concrete
  witnesses instantiate `F := ℤ`.
* The C++ `unsigned` values (hash codes, item identifiers, parameters) are
  modelled as `ℕ`.
* An input vector (`const DATATYPE *domin`) is modelled as a function
  `ℕ → F` (a pointer that can be read at any offset).
* A `std::map<unsigned, std::vector<unsigned>>` hash table is modelled as
  an association list sorted strictly by key, which is the iteration
  order guaranteed by `std::map`.
* Fallible operations (the out-of-bounds write in `unsignedToBools`,
  parsing a saved file) return `Option`.
-/

set_option linter.unusedSectionVars false

variable {F : Type} [LinearOrderedCommRing F]

/-- One bucket table: a `std::map<unsigned, std::vector<unsigned>>`,
as a key-sorted association list from bucket code to posting list. -/
abbrev Table : Type := List (ℕ × List ℕ)

/-- Parameter block of `laItqLsh` (struct Parameter). -/
structure Params where
  M : ℕ
  L : ℕ
  D : ℕ
  N : ℕ
  S : ℕ
  I : ℕ
deriving DecidableEq, Repr

/-- Full mutable state of a `laItqLsh` object. -/
structure IndexState (F : Type) where
  param : Params
  pcsAll : List (List (List F))
  omegasAll : List (List (List F))
  rndArray : List (List ℕ)
  tables : List Table
  meanAndSTD : List (List F)
deriving DecidableEq

/-- First loop of `getHashVal` and of `getHashFloats`: the PCA projection
`domin_pc[i] = sum_j domin[j] * pcsAll[k][i][j]`. -/
def dominPc (pcs : List (List F)) (domin : ℕ → F) : List F :=
  pcs.map (fun row => (row.enum.map (fun p => domin p.1 * p.2)).sum)

/-- Second loop of `getHashFloats`: for each `i` below `domin_pc.size()`,
`product = sum_j domin_pc[j] * omegasAll[k][i][j]` with `j` ranging over
`omegasAll[k][i].size()`.  The inner loops of `getHashVal` and
`getHashFloats` compute exactly the same products. -/
def getHashFloats (pcs omegas : List (List F)) (domin : ℕ → F) : List F :=
  let dpc := dominPc pcs domin
  (List.range dpc.length).map (fun i =>
    ((omegas.getD i []).enum.map (fun p => dpc.getD p.1 0 * p.2)).sum)

/-- Packing loop of `getHashVal`: `hashVal = hashVal * 2; if (product > 0)
hashVal += 1` over the hash floats, most significant bit first.  Note the
strict comparison `product > 0`. -/
def getHashVal (pcs omegas : List (List F)) (domin : ℕ → F) : ℕ :=
  (getHashFloats pcs omegas domin).foldl
    (fun h x => 2 * h + if 0 < x then 1 else 0) 0

/-- Member function `quantization`: bit `i` is 1 iff `hashFloats[i] >= 0`.
Note the inclusive comparison, unlike the strict one in `getHashVal`. -/
def quantization (hashFloats : List F) : List Bool :=
  hashFloats.map (fun x => decide (0 ≤ x))

/-- Member function `getHashBits`: projection followed by quantization. -/
def getHashBits (pcs omegas : List (List F)) (domin : ℕ → F) : List Bool :=
  quantization (getHashFloats pcs omegas domin)

/-- MSB-first packing of a bit vector into a natural number, the packing
used by the accumulation loop of `getHashVal`. -/
def boolsToNat (bits : List Bool) : ℕ :=
  bits.foldl (fun h b => 2 * h + if b then 1 else 0) 0

/-- Generic accumulator law for the MSB-first packing fold. -/
lemma foldl_pack_acc {α : Type} (step : α → ℕ) :
    ∀ (l : List α) (a : ℕ),
      l.foldl (fun h b => 2 * h + step b) a =
        a * 2 ^ l.length + l.foldl (fun h b => 2 * h + step b) 0 := by
  intro l
  induction l with
  | nil => intro a; simp
  | cons b t ih =>
      intro a
      simp only [List.foldl_cons, List.length_cons]
      rw [ih (2 * a + step b), ih (2 * 0 + step b)]
      ring

lemma boolsToNat_cons (b : Bool) (l : List Bool) :
    boolsToNat (b :: l) = (if b then 1 else 0) * 2 ^ l.length + boolsToNat l := by
  unfold boolsToNat
  simp only [List.foldl_cons]
  rw [foldl_pack_acc (fun b => if b then 1 else 0) l]
  simp

lemma boolsToNat_lt (l : List Bool) : boolsToNat l < 2 ^ l.length := by
  induction l with
  | nil => simp [boolsToNat]
  | cons b t ih =>
      rw [boolsToNat_cons, List.length_cons, pow_succ]
      have hb : (if b then 1 else 0) ≤ 1 := by rcases b <;> simp
      nlinarith [ih, pow_pos (show (0:ℕ) < 2 by norm_num) t.length]

/-- A fold that shifts in one bit per element equals the MSB-first packing
of the corresponding bit list. -/
lemma foldl_pack_eq {α : Type} (p : α → Bool) (l : List α) :
    l.foldl (fun h x => 2 * h + if p x then 1 else 0) 0 = boolsToNat (l.map p) := by
  induction l with
  | nil => simp [boolsToNat]
  | cons x t ih =>
      simp only [List.foldl_cons, List.map_cons]
      rw [boolsToNat_cons,
        foldl_pack_acc (fun x => if p x then 1 else 0) t (2 * 0 + if p x then 1 else 0),
        ih, List.length_map]
      rcases hp : p x <;> simp

/-- Member function `getHashVal` is the MSB-first packing of the strict
sign bits of the hash floats. -/
lemma getHashVal_eq_pack (pcs omegas : List (List F)) (domin : ℕ → F) :
    getHashVal pcs omegas domin =
      boolsToNat ((getHashFloats pcs omegas domin).map (fun x => decide (0 < x))) := by
  unfold getHashVal
  rw [← foldl_pack_eq (fun x : F => decide (0 < x))]
  simp only [decide_eq_true_eq]

lemma getHashFloats_length (pcs omegas : List (List F)) (domin : ℕ → F) :
    (getHashFloats pcs omegas domin).length = pcs.length := by
  simp [getHashFloats, dominPc]

lemma getHashBits_length (pcs omegas : List (List F)) (domin : ℕ → F) :
    (getHashBits pcs omegas domin).length = pcs.length := by
  simp [getHashBits, quantization, getHashFloats_length]

/-- Hash codes produced by `getHashVal` have at most `pcs.length` bits. -/
lemma getHashVal_lt_two_pow (pcs omegas : List (List F)) (domin : ℕ → F) :
    getHashVal pcs omegas domin < 2 ^ pcs.length := by
  rw [getHashVal_eq_pack]
  have h := boolsToNat_lt ((getHashFloats pcs omegas domin).map (fun x => decide (0 < x)))
  rwa [List.length_map, getHashFloats_length] at h

/-- C1 (counterexample). The claim states that `getHashVal` equals the
MSB-first packing of `getHashBits` with the sign threshold inclusive at
zero in both.  This fails whenever a hash float is exactly zero:
`getHashVal` uses the strict test `product > 0` while `quantization`
uses `hashFloats[i] >= 0`.  The matrices `pcs = [[1]]`, `omegas = [[1]]`
arise from training with `D = N = 1` (a unit eigenvector and an
orthogonal 1 x 1 rotation), and the input is the zero vector, whose hash
float is exactly 0 even in floating point. -/
theorem c1_counterexample :
    getHashVal (F := ℤ) [[1]] [[1]] (fun _ => 0) ≠
      boolsToNat (getHashBits (F := ℤ) [[1]] [[1]] (fun _ => 0)) := by
  decide

/-- C1 (amended). For every table with trained matrices and every input
vector none of whose hash floats is exactly zero, the packed integer code
`getHashVal` equals the MSB-first packing of the bit vector
`getHashBits` (bit 0 of the iteration becomes the highest-order bit).
At a hash float equal to 0 the two disagree: `getHashVal` maps it to the
0 bit (strict `> 0`), `getHashBits` maps it to the 1 bit (`>= 0`). -/
theorem c1_getHashVal_eq_pack_getHashBits (pcs omegas : List (List F)) (domin : ℕ → F)
    (h : ∀ x ∈ getHashFloats pcs omegas domin, x ≠ 0) :
    getHashVal pcs omegas domin = boolsToNat (getHashBits pcs omegas domin) := by
  rw [getHashVal_eq_pack]
  unfold getHashBits quantization
  congr 1
  apply List.map_congr_left
  intro x hx
  have hne := h x hx
  rcases lt_trichotomy 0 x with hlt | heq | hgt
  · simp [hlt, le_of_lt hlt]
  · exact absurd heq.symm hne
  · simp [not_lt_of_gt hgt, not_le_of_gt hgt]

/-- C1 witness: a concrete nonzero-float instance of the amended claim. -/
theorem c1_witness :
    (∀ x ∈ getHashFloats (F := ℤ) [[1]] [[1]] (fun _ => 1), x ≠ 0) ∧
      getHashVal (F := ℤ) [[1]] [[1]] (fun _ => 1) =
        boolsToNat (getHashBits (F := ℤ) [[1]] [[1]] (fun _ => 1)) :=
  ⟨by decide, c1_getHashVal_eq_pack_getHashBits [[1]] [[1]] (fun _ => 1) (by decide)⟩

/-- Map update `tables[k][hashVal].push_back(key)` on the key-sorted
association list: create the bucket at its sorted position if absent,
append the key to its posting list otherwise. -/
def bucketAdd : Table → ℕ → ℕ → Table
  | [], c, key => [(c, [key])]
  | (c0, l0) :: rest, c, key =>
      if c < c0 then (c, [key]) :: (c0, l0) :: rest
      else if c = c0 then (c0, l0 ++ [key]) :: rest
      else (c0, l0) :: bucketAdd rest c key

/-- Bucket codes stored in a table (the map keys). -/
def tableKeys (t : Table) : List ℕ := t.map Prod.fst

/-- Member function `insert`: for every table `k` below `param.L`, hash
the vector with the matrices of table `k` and append the key to the
posting list of the resulting code. -/
def insert (st : IndexState F) (key : ℕ) (domin : ℕ → F) : IndexState F :=
  { st with tables :=
      (List.range st.param.L).map (fun k =>
        bucketAdd (st.tables.getD k [])
          (getHashVal (st.pcsAll.getD k []) (st.omegasAll.getD k []) domin) key) }

/-- Population of one table by a sequence of `insert` calls (the loop of
member function `hash` restricted to one table): item `i` goes into the
bucket of its own code. -/
def populate (code : ℕ → (ℕ → F) → ℕ) (items : List (ℕ × (ℕ → F))) (t : Table) : Table :=
  items.foldl (fun t it => bucketAdd t (code it.1 it.2) it.1) t

lemma tableKeys_bucketAdd (t : Table) (c key : ℕ) :
    ∀ x ∈ tableKeys (bucketAdd t c key), x ∈ tableKeys t ∨ x = c := by
  induction t with
  | nil => intro x hx; simp [bucketAdd, tableKeys] at hx; simp [hx]
  | cons e rest ih =>
      intro x hx
      rcases e with ⟨c0, l0⟩
      unfold bucketAdd at hx
      by_cases h1 : c < c0
      · simp [h1, tableKeys] at hx
        rcases hx with hx | hx | hx
        · right; exact hx
        · left; simp [tableKeys, hx]
        · left; simp [tableKeys]; right; exact ⟨hx.choose, hx.choose_spec⟩
      · by_cases h2 : c = c0
        · simp [h1, h2, tableKeys] at hx
          rcases hx with hx | hx
          · right; omega
          · left; simp [tableKeys]; right; exact ⟨hx.choose, hx.choose_spec⟩
        · simp [h1, h2, tableKeys] at hx
          rcases hx with hx | hx
          · left; simp [tableKeys, hx]
          · rcases ih x (by simpa [tableKeys] using hx) with h | h
            · left; simp [tableKeys] at h ⊢; right; exact h
            · right; exact h

lemma populate_keys_lt (code : ℕ → (ℕ → F) → ℕ) (bound : ℕ)
    (hcode : ∀ i v, code i v < bound) :
    ∀ (items : List (ℕ × (ℕ → F))) (t : Table),
      (∀ c ∈ tableKeys t, c < bound) →
      ∀ c ∈ tableKeys (populate code items t), c < bound := by
  intro items
  induction items with
  | nil => intro t ht; simpa [populate] using ht
  | cons it rest ih =>
      intro t ht c hc
      have hstep : ∀ x ∈ tableKeys (bucketAdd t (code it.1 it.2) it.1), x < bound := by
        intro x hx
        rcases tableKeys_bucketAdd t (code it.1 it.2) it.1 x hx with h | h
        · exact ht x h
        · rw [h]; exact hcode it.1 it.2
      exact ih (bucketAdd t (code it.1 it.2) it.1) hstep c (by simpa [populate] using hc)

/-- C9. For a trained table (projection matrix with `N` rows, one per
bit) and any sequence of insert calls starting from a table whose codes
already fit in `N` bits (in particular the empty table), every bucket
code stored as a key stays below `2 ^ N`, because `getHashVal`
accumulates exactly `N` binary digits. -/
theorem c9_insert_code_width (pcs omegas : List (List F)) (N : ℕ)
    (hN : pcs.length = N) (items : List (ℕ × (ℕ → F))) (t : Table)
    (ht : ∀ c ∈ tableKeys t, c < 2 ^ N) :
    ∀ c ∈ tableKeys (populate (fun _ v => getHashVal pcs omegas v) items t),
      c < 2 ^ N := by
  refine populate_keys_lt _ _ ?_ items t ht
  intro _ v
  rw [← hN]
  exact getHashVal_lt_two_pow pcs omegas v

/-- C9 witness: populating an empty table with two items over a trained
1-bit table keeps every stored code below 2. -/
theorem c9_witness :
    (([[1]] : List (List ℤ)).length = 1 ∧
        ∀ c ∈ tableKeys ([] : Table), c < 2 ^ 1) ∧
      ∀ c ∈ tableKeys (populate
          (fun _ v => getHashVal (F := ℤ) [[1]] [[1]] v)
          [(0, fun _ => 1), (1, fun _ => -2)] []), c < 2 ^ 1 :=
  ⟨⟨by decide, by decide⟩,
    c9_insert_code_width [[1]] [[1]] 1 (by decide)
      [(0, fun _ => 1), (1, fun _ => -2)] [] (by decide)⟩

/-- Loop of member function `unsignedToBools`: `while (num > 0) {
bits[--nBits] = num % 2; num /= 2; }`.  The write `bits[--nBits]` with
`nBits == 0` would decrement the index below zero (out of bounds); that
failure is modelled as `none`. -/
def unsignedToBoolsLoop : ℕ → List Bool → ℕ → Option (List Bool)
  | 0, bits, num => if num = 0 then some bits else none
  | nBits + 1, bits, num =>
      if num = 0 then some bits
      else unsignedToBoolsLoop nBits (bits.set nBits (decide (num % 2 = 1))) (num / 2)

/-- Member function `unsignedToBools`: start from `param.N` bits all
false and fill from the least significant end. -/
def unsignedToBools (N num : ℕ) : Option (List Bool) :=
  unsignedToBoolsLoop N (List.replicate N false) num

/-- MSB-first binary digits of a natural number, without leading zeros. -/
def natToBits : ℕ → List Bool
  | 0 => []
  | n + 1 => natToBits ((n + 1) / 2) ++ [decide ((n + 1) % 2 = 1)]
decreasing_by exact Nat.div_lt_self (Nat.succ_pos n) one_lt_two

lemma natToBits_pos {n : ℕ} (h : n ≠ 0) :
    natToBits n = natToBits (n / 2) ++ [decide (n % 2 = 1)] := by
  rcases n with _ | m
  · exact absurd rfl h
  · rw [natToBits]

lemma natToBits_length_le {k : ℕ} : ∀ {n : ℕ}, n < 2 ^ k → (natToBits n).length ≤ k := by
  induction k with
  | zero =>
      intro n hn
      have : n = 0 := by omega
      subst this
      simp [natToBits]
  | succ k ih =>
      intro n hn
      rcases Nat.eq_zero_or_pos n with h0 | hpos
      · subst h0; simp [natToBits]
      · rw [natToBits_pos (Nat.pos_iff_ne_zero.mp hpos)]
        have hdiv : n / 2 < 2 ^ k := by
          rw [Nat.div_lt_iff_lt_mul (by norm_num)]
          calc n < 2 ^ (k + 1) := hn
            _ = 2 ^ k * 2 := by rw [pow_succ]
        have := ih hdiv
        simp only [List.length_append, List.length_cons, List.length_nil]
        omega

lemma boolsToNat_append_bit (l : List Bool) (b : Bool) :
    boolsToNat (l ++ [b]) = 2 * boolsToNat l + (if b then 1 else 0) := by
  unfold boolsToNat
  rw [List.foldl_append]
  simp

lemma boolsToNat_natToBits : ∀ n : ℕ, boolsToNat (natToBits n) = n := by
  intro n
  induction n using Nat.strong_induction_on with
  | _ n ih =>
      rcases Nat.eq_zero_or_pos n with h0 | hpos
      · subst h0; simp [natToBits, boolsToNat]
      · rw [natToBits_pos (Nat.pos_iff_ne_zero.mp hpos), boolsToNat_append_bit,
          ih (n / 2) (Nat.div_lt_self hpos one_lt_two)]
        rcases Nat.even_or_odd n with he | ho
        · have h2 : n % 2 = 0 := Nat.even_iff.mp he
          simp [h2]
          omega
        · have h2 : n % 2 = 1 := Nat.odd_iff.mp ho
          simp [h2]
          omega

lemma take_set_of_le {α : Type} (l : List α) (i m : ℕ) (a : α) (h : m ≤ i) :
    (l.set i a).take m = l.take m := by
  apply List.ext_getElem
  · simp
  · intro n h1 h2
    rw [List.getElem_take, List.getElem_take, List.getElem_set]
    have : i ≠ n := by
      have := List.length_take_le m l
      simp at h2
      omega
    simp [this]

lemma unsignedToBoolsLoop_spec :
    ∀ (nBits : ℕ) (num : ℕ) (bits : List Bool),
      num < 2 ^ nBits → nBits ≤ bits.length →
      unsignedToBoolsLoop nBits bits num =
        some (bits.take (nBits - (natToBits num).length) ++ natToBits num ++
          bits.drop nBits) := by
  intro nBits
  induction nBits with
  | zero =>
      intro num bits hnum _
      have h0 : num = 0 := by omega
      subst h0
      simp [unsignedToBoolsLoop, natToBits]
  | succ k ih =>
      intro num bits hnum hlen
      by_cases h0 : num = 0
      · subst h0
        simp [unsignedToBoolsLoop, natToBits]
      · have hdiv : num / 2 < 2 ^ k := by
          rw [Nat.div_lt_iff_lt_mul (by norm_num)]
          calc num < 2 ^ (k + 1) := hnum
            _ = 2 ^ k * 2 := by rw [pow_succ]
        have hklen : k < bits.length := by omega
        have hset : (bits.set k (decide (num % 2 = 1))).length = bits.length := by simp
        rw [show unsignedToBoolsLoop (k + 1) bits num =
            unsignedToBoolsLoop k (bits.set k (decide (num % 2 = 1))) (num / 2) by
          simp [unsignedToBoolsLoop, h0]]
        rw [ih (num / 2) (bits.set k (decide (num % 2 = 1))) hdiv (by omega)]
        have hd : (natToBits (num / 2)).length ≤ k := natToBits_length_le hdiv
        congr 1
        rw [natToBits_pos h0]
        have htake : (bits.set k (decide (num % 2 = 1))).take
            (k - (natToBits (num / 2)).length) =
            bits.take (k - (natToBits (num / 2)).length) :=
          take_set_of_le _ _ _ _ (by omega)
        have hdrop : (bits.set k (decide (num % 2 = 1))).drop k =
            decide (num % 2 = 1) :: bits.drop (k + 1) := by
          rw [List.drop_eq_getElem_cons (by omega : k < (bits.set k _).length)]
          rw [List.getElem_set]
          simp only [if_pos rfl]
          rw [List.drop_set]
          simp
        rw [htake, hdrop]
        have harith : k + 1 - ((natToBits (num / 2)).length + 1) =
            k - (natToBits (num / 2)).length := by omega
        simp only [List.length_append, List.length_cons, List.length_nil]
        rw [harith]
        simp [List.append_assoc]

lemma unsignedToBoolsLoop_oob :
    ∀ (nBits : ℕ) (num : ℕ) (bits : List Bool),
      2 ^ nBits ≤ num → unsignedToBoolsLoop nBits bits num = none := by
  intro nBits
  induction nBits with
  | zero =>
      intro num bits h
      have : num ≠ 0 := by simpa using Nat.pos_iff_ne_zero.mp (by omega)
      simp [unsignedToBoolsLoop, this]
  | succ k ih =>
      intro num bits h
      have h0 : num ≠ 0 := by
        have : 0 < 2 ^ (k + 1) := pow_pos (by norm_num) _
        omega
      have hdiv : 2 ^ k ≤ num / 2 := by
        rw [Nat.le_div_iff_mul_le (by norm_num)]
        calc 2 ^ k * 2 = 2 ^ (k + 1) := (pow_succ 2 k).symm
          _ ≤ num := h
      simp only [unsignedToBoolsLoop, h0, if_false]
      exact ih _ _ hdiv

lemma boolsToNat_replicate_false_append (k : ℕ) (l : List Bool) :
    boolsToNat (List.replicate k false ++ l) = boolsToNat l := by
  induction k with
  | zero => simp
  | succ m ih =>
      rw [List.replicate_succ, List.cons_append, boolsToNat_cons]
      simpa using ih

/-- C10. Member function `unsignedToBools` with precondition `num < 2^N`:
every write stays in bounds, the returned vector has exactly `N` entries
and its MSB-first binary value is `num`.  The precondition is required:
for `num >= 2^N` the loop decrements the write index below zero, an out
of bounds write modelled by the `none` result. -/
theorem c10_unsignedToBools_spec (N num : ℕ) :
    (num < 2 ^ N →
      ∃ l, unsignedToBools N num = some l ∧ l.length = N ∧ boolsToNat l = num) ∧
    (2 ^ N ≤ num → unsignedToBools N num = none) := by
  constructor
  · intro hnum
    have hd : (natToBits num).length ≤ N := natToBits_length_le hnum
    rw [unsignedToBools, unsignedToBoolsLoop_spec N num (List.replicate N false) hnum
      (by simp)]
    refine ⟨_, rfl, ?_, ?_⟩
    · simp
      omega
    · rw [List.take_replicate, List.drop_replicate, Nat.sub_self, List.replicate_zero,
        List.append_nil]
      have hmin : (N - (natToBits num).length) ⊓ N = N - (natToBits num).length := by
        omega
      rw [hmin, boolsToNat_replicate_false_append, boolsToNat_natToBits]
  · intro hnum
    exact unsignedToBoolsLoop_oob N num _ hnum

/-- C10 witness: concrete instances of both halves (num = 3 fits in 2
bits and yields [true, true]; num = 4 does not fit and is rejected). -/
theorem c10_witness :
    ((3 < 2 ^ 2 ∧
        ∃ l, unsignedToBools 2 3 = some l ∧ l.length = 2 ∧ boolsToNat l = 3) ∧
      (2 ^ 2 ≤ 4 ∧ unsignedToBools 2 4 = none)) :=
  ⟨⟨by decide, (c10_unsignedToBools_spec 2 3).1 (by decide)⟩,
    ⟨by decide, (c10_unsignedToBools_spec 2 4).2 (by decide)⟩⟩

/-- Modelled from the spec: the multi-probe sequence generator (class
`Probing` of probing.h, an external collaborator whose source is not
under src/) is abstracted by the sequence of bucket codes its successive
`pop()` calls return.  `gen flag bits floats j` is the code returned by
the `(j+1)`-th `pop()` of a generator constructed from the binary code
`bits`, the signed projections `floats` and the normalization flag
`flag`; the generator is deterministic in its constructor arguments. -/
abbrev ProbingGen (F : Type) : Type := Bool → List Bool → List F → ℕ → ℕ

/-- Code that `rehash` stores into table `k` for an item with vector `v`:
table 0 receives the exact hash value, table `k >= 1` receives the code
of the k-th `pop()` of a generator seeded with the item bits and floats
(and hard-coded flag `false`, as in the source). -/
def rehashCode (gen : ProbingGen F) (pcs omegas : List (List F)) (k : ℕ) (v : ℕ → F) : ℕ :=
  if k = 0 then getHashVal pcs omegas v
  else gen false (getHashBits pcs omegas v) (getHashFloats pcs omegas v) (k - 1)

/-- Item loop body of `rehash`: every table `k < numTables` gets the item
appended to the posting list of `rehashCode k`. -/
def rehashTables (gen : ProbingGen F) (pcs omegas : List (List F)) (numTables : ℕ)
    (data : List (ℕ → F)) : List Table :=
  data.enum.foldl
    (fun ts iv =>
      (List.range numTables).map (fun k =>
        bucketAdd (ts.getD k []) (rehashCode gen pcs omegas k iv.2) iv.1))
    (List.replicate numTables [])

/-- Member function `rehash`: returns immediately when `numTables == 1`,
otherwise clears the tables and rebuilds `numTables` tables from the
matrices of table 0. -/
def rehashState (gen : ProbingGen F) (st : IndexState F) (data : List (ℕ → F))
    (numTables : ℕ) : IndexState F :=
  if numTables = 1 then st
  else { st with tables :=
      rehashTables gen (st.pcsAll.getD 0 []) (st.omegasAll.getD 0 []) numTables data }

lemma getD_replicate {α : Type} (T k : ℕ) (a : α) :
    (List.replicate T a).getD k a = a := by
  rw [List.getD_eq_getElem?_getD, List.getElem?_replicate]
  split <;> simp

/-- Exchanging the item-major loop of `rehash` for a table-major view:
each table is exactly the population of its own code stream. -/
lemma rehash_fold_exchange (codeK : ℕ → ℕ → (ℕ → F) → ℕ) (T : ℕ) :
    ∀ (items : List (ℕ × (ℕ → F))) (ts : List Table), ts.length = T →
      items.foldl
        (fun ts it =>
          (List.range T).map (fun k => bucketAdd (ts.getD k []) (codeK k it.1 it.2) it.1))
        ts =
      (List.range T).map
        (fun k => items.foldl (fun t it => bucketAdd t (codeK k it.1 it.2) it.1)
          (ts.getD k [])) := by
  intro items
  induction items with
  | nil =>
      intro ts hts
      simp only [List.foldl_nil]
      apply List.ext_getElem
      · simp [hts]
      · intro n h1 h2
        simp only [List.getElem_map, List.getElem_range]
        rw [List.getD_eq_getElem?_getD, List.getElem?_eq_getElem (by omega), Option.getD_some]
  | cons it rest ih =>
      intro ts hts
      simp only [List.foldl_cons]
      rw [ih _ (by simp)]
      apply List.map_congr_left
      intro k hk
      have hk' : k < T := List.mem_range.mp hk
      congr 1
      rw [List.getD_eq_getElem?_getD,
        List.getElem?_eq_getElem (by simpa using hk'), Option.getD_some]
      simp only [List.getElem_map, List.getElem_range]

/-- C8. After `rehash(data, T)` with `T > 1` the index has exactly `T`
tables; table 0 maps every item to its exact table-0 code and each table
`k` in `1..T-1` receives per item the k-th code popped from the
multi-probe generator seeded with the item bits and floats; and
`rehash(data, 1)` returns immediately, leaving the whole index state
unchanged. -/
theorem c8_rehash_spec (gen : ProbingGen F) (st : IndexState F) (data : List (ℕ → F))
    (T : ℕ) (hT : 2 ≤ T) :
    ((rehashState gen st data T).tables.length = T ∧
      (rehashState gen st data T).tables.getD 0 [] =
        populate
          (fun _ v => getHashVal (st.pcsAll.getD 0 []) (st.omegasAll.getD 0 []) v)
          data.enum [] ∧
      (∀ k, 1 ≤ k → k < T →
        (rehashState gen st data T).tables.getD k [] =
          populate
            (fun _ v => gen false (getHashBits (st.pcsAll.getD 0 []) (st.omegasAll.getD 0 []) v)
              (getHashFloats (st.pcsAll.getD 0 []) (st.omegasAll.getD 0 []) v) (k - 1))
            data.enum [])) ∧
    rehashState gen st data 1 = st := by
  have hT1 : T ≠ 1 := by omega
  have hrw : (rehashState gen st data T).tables =
      rehashTables gen (st.pcsAll.getD 0 []) (st.omegasAll.getD 0 []) T data := by
    simp [rehashState, hT1]
  have hex := rehash_fold_exchange
    (fun k _ v => rehashCode gen (st.pcsAll.getD 0 []) (st.omegasAll.getD 0 []) k v)
    T data.enum (List.replicate T []) (by simp)
  refine ⟨⟨?_, ?_, ?_⟩, by simp [rehashState]⟩
  · rw [hrw]
    unfold rehashTables
    rw [hex]
    simp
  · rw [hrw]
    unfold rehashTables
    rw [hex]
    have h0 : (0 : ℕ) < T := by omega
    rw [List.getD_eq_getElem?_getD, List.getElem?_eq_getElem (by simpa using h0),
      Option.getD_some]
    simp only [List.getElem_map, List.getElem_range, getD_replicate]
    unfold populate
    simp [rehashCode]
  · intro k hk1 hkT
    rw [hrw]
    unfold rehashTables
    rw [hex]
    rw [List.getD_eq_getElem?_getD, List.getElem?_eq_getElem (by simpa using hkT),
      Option.getD_some]
    simp only [List.getElem_map, List.getElem_range, getD_replicate]
    unfold populate
    have hk0 : k ≠ 0 := by omega
    simp [rehashCode, hk0]

/-- Concrete one-table index used by several witnesses (trained with
D = N = L = 1, one populated bucket). -/
def wIdx : IndexState ℤ :=
  { param := ⟨8, 1, 1, 1, 1, 1⟩, pcsAll := [[[1]]], omegasAll := [[[1]]],
    rndArray := [[0]], tables := [[(1, [0, 1])]], meanAndSTD := [] }

/-- Concrete deterministic probing generator used by witnesses. -/
def wGen : ProbingGen ℤ := fun _ _ _ j => j

/-- Concrete two-item dataset used by witnesses. -/
def wData : List (ℕ → ℤ) := [fun _ => 1, fun _ => -1]

/-- C8 witness: rehash of a concrete two-item index to two tables, with a
concrete generator. -/
theorem c8_witness :
    2 ≤ 2 ∧
      (((rehashState wGen wIdx wData 2).tables.length = 2 ∧
        (rehashState wGen wIdx wData 2).tables.getD 0 [] =
          populate
            (fun _ v => getHashVal (wIdx.pcsAll.getD 0 []) (wIdx.omegasAll.getD 0 []) v)
            wData.enum [] ∧
        ∀ k, 1 ≤ k → k < 2 →
          (rehashState wGen wIdx wData 2).tables.getD k [] =
            populate
              (fun _ v => wGen false
                (getHashBits (wIdx.pcsAll.getD 0 []) (wIdx.omegasAll.getD 0 []) v)
                (getHashFloats (wIdx.pcsAll.getD 0 []) (wIdx.omegasAll.getD 0 []) v)
                (k - 1))
              wData.enum []) ∧
      rehashState wGen wIdx wData 1 = wIdx) :=
  ⟨by decide, c8_rehash_spec wGen wIdx wData 2 (by decide)⟩

/-- Assertion `assert(param.L == 1)` at the top of the direct query
strategies `query`, `queryRanking`, `queryRankingByLoss` and
`queryByLoss` (and of `probe` and `getBuckets`): the operation aborts
iff this Bool is false. -/
def singleTableCheck (st : IndexState F) : Bool := decide (st.param.L = 1)

/-- C5 (counterexample). The claim states that invoking a direct
single-table strategy while the live index holds more than one populated
table always fails the precondition check.  After `rehash(data, 2)` the
index holds two populated tables, but `param.L` is still 1, so the
assertion `param.L == 1` passes and the query proceeds silently. -/
theorem c5_counterexample :
    1 < (rehashState wGen wIdx wData 2).tables.length ∧
    (∀ t ∈ (rehashState wGen wIdx wData 2).tables, t ≠ []) ∧
    singleTableCheck (rehashState wGen wIdx wData 2) = true := by
  decide

/-- C5 (amended). The precondition check of the direct strategies tests
the configured parameter `L`, not the live table count: it fails exactly
when `param.L` differs from 1, and `rehash` never changes `param.L`, so
after a rehash to `T > 1` virtual tables the check still passes and the
query proceeds over table 0 only. -/
theorem c5_check_tests_param_only (gen : ProbingGen F) (st : IndexState F)
    (data : List (ℕ → F)) (T : ℕ) :
    (singleTableCheck st = true ↔ st.param.L = 1) ∧
    singleTableCheck (rehashState gen st data T) = singleTableCheck st := by
  constructor
  · simp [singleTableCheck]
  · unfold rehashState singleTableCheck
    split <;> rfl

set_option linter.unusedVariables false in
/-- Flag value passed to the `Probing` constructor inside `queryByLoss`.
The source constructs the generator with the literal `false`
(`Probing pro(hashBits, hashFloats, false);`), never with the member
argument `withMeanAndSTD`. -/
def queryByLossProbingFlag (withMeanAndSTD : Bool) : Bool := false

/-- Bucket codes probed by `queryByLoss` with budget `maxNumBuckets`: the
query bucket itself first, then `maxNumBuckets - 1` codes popped from
the generator. -/
def queryByLossProbes (gen : ProbingGen F) (pcs omegas : List (List F)) (domin : ℕ → F)
    (maxNumBuckets : ℕ) (withMeanAndSTD : Bool) : List ℕ :=
  getHashVal pcs omegas domin ::
    (List.range (maxNumBuckets - 1)).map (fun j =>
      gen (queryByLossProbingFlag withMeanAndSTD)
        (getHashBits pcs omegas domin) (getHashFloats pcs omegas domin) j)

/-- C4. The claim states that `queryByLoss` constructs the multi-probe
generator with the caller-supplied `withMeanAndSTD` flag.  In the code
the constructor argument is the literal `false`: the flag passed is
`false` even when the caller passes `true`, and consequently the whole
probe sequence is independent of `withMeanAndSTD`.  This contradicts the
declared interface (the parameter is dead), so the claim is recorded as
a code bug. -/
theorem c4_queryByLoss_flag_ignored :
    (∀ w : Bool, queryByLossProbingFlag w = false) ∧
    ∀ (gen : ProbingGen F) (pcs omegas : List (List F)) (domin : ℕ → F)
      (maxNumBuckets : ℕ),
      queryByLossProbes gen pcs omegas domin maxNumBuckets true =
        queryByLossProbes gen pcs omegas domin maxNumBuckets false :=
  ⟨fun _ => rfl, fun _ _ _ _ _ => rfl⟩

/-- Bit-count loop of `queryRanking` (`while (xorVal != 0) { hamDist++;
xorVal &= xorVal - 1; }`), which counts the set bits of its argument;
modelled by binary-digit recursion.  The first argument is structural
fuel; `n` iterations always suffice since the bit length of `n` is at
most `n`. -/
def popcountFuel : ℕ → ℕ → ℕ
  | 0, _ => 0
  | f + 1, n => if n = 0 then 0 else popcountFuel f (n / 2) + n % 2

/-- Number of set bits of `n`. -/
def popcount (n : ℕ) : ℕ := popcountFuel n n

/-- Hamming distance as computed by `queryRanking`: the number of set
bits of `hashVal ^ bucketVal`. -/
def hamDist (a b : ℕ) : ℕ := popcount (a ^^^ b)

lemma popcountFuel_le : ∀ (k : ℕ) (n f : ℕ), n < 2 ^ k → n ≤ f → popcountFuel f n ≤ k := by
  intro k
  induction k with
  | zero =>
      intro n f hn _
      have h0 : n = 0 := by simpa using hn
      subst h0
      rcases f with _ | m <;> simp [popcountFuel]
  | succ k ih =>
      intro n f hn hf
      by_cases h0 : n = 0
      · subst h0
        rcases f with _ | m <;> simp [popcountFuel]
      · rcases f with _ | m
        · omega
        · have hdiv : n / 2 < 2 ^ k := by
            rw [Nat.div_lt_iff_lt_mul (by norm_num)]
            calc n < 2 ^ (k + 1) := hn
              _ = 2 ^ k * 2 := by rw [pow_succ]
          have hdf : n / 2 ≤ m := by
            have := Nat.div_lt_self (Nat.pos_of_ne_zero h0) one_lt_two
            omega
          have := ih (n / 2) m hdiv hdf
          have hmod : n % 2 ≤ 1 := by omega
          simp only [popcountFuel, h0, if_false]
          omega

lemma hamDist_le {n a b : ℕ} (ha : a < 2 ^ n) (hb : b < 2 ^ n) : hamDist a b ≤ n :=
  popcountFuel_le n _ _ (Nat.xor_lt_two_pow ha hb) le_rfl

/-- Binning loop of `queryRanking`: every populated bucket code is pushed
onto the class of its Hamming distance from the query code
(`dstToBks[hamDist].push_back(bucketVal)`), iterating the map in key
order.  `dstToBks` has `param.N + 1` classes. -/
def queryRankingClasses (hashVal N : ℕ) (t : Table) : List (List ℕ) :=
  (tableKeys t).foldl
    (fun cls c => cls.set (hamDist hashVal c) (cls.getD (hamDist hashVal c) [] ++ [c]))
    (List.replicate (N + 1) [])

/-- Probe walk of `queryRanking`: the classes are traversed in increasing
distance order, each class in push order, until
`min(tables[k].size(), maxNumBuckets)` buckets have been probed. -/
def queryRankingProbes (hashVal N maxNumBuckets : ℕ) (t : Table) : List ℕ :=
  (queryRankingClasses hashVal N t).flatten.take (min t.length maxNumBuckets)

lemma getD_map_range {α : Type} (g : ℕ → α) (n d : ℕ) (a : α) (h : d < n) :
    ((List.range n).map g).getD d a = g d := by
  rw [List.getD_eq_getElem?_getD, List.getElem?_map, List.getElem?_range h]
  rfl

lemma set_map_range {α : Type} (g : ℕ → α) (n d : ℕ) (x : α) (h : d < n) :
    ((List.range n).map g).set d x =
      (List.range n).map (fun e => if e = d then x else g e) := by
  apply List.ext_getElem
  · simp
  · intro m h1 h2
    rw [List.getElem_set]
    simp only [List.getElem_map, List.getElem_range]
    rcases eq_or_ne d m with rfl | hne
    · simp
    · simp [hne, Ne.symm hne]

lemma classesFold_eq_filter (q N : ℕ) :
    ∀ (codes : List ℕ) (g : ℕ → List ℕ),
      (∀ c ∈ codes, hamDist q c ≤ N) →
      codes.foldl
        (fun cls c => cls.set (hamDist q c) (cls.getD (hamDist q c) [] ++ [c]))
        ((List.range (N + 1)).map g) =
      (List.range (N + 1)).map
        (fun d => g d ++ codes.filter (fun c => hamDist q c == d)) := by
  intro codes
  induction codes with
  | nil =>
      intro g _
      simp
  | cons c rest ih =>
      intro g hc
      have hd : hamDist q c ≤ N := hc c (List.mem_cons_self c rest)
      simp only [List.foldl_cons]
      rw [getD_map_range g (N + 1) _ [] (by omega),
        set_map_range g (N + 1) _ (g (hamDist q c) ++ [c]) (by omega),
        ih _ (fun x hx => hc x (List.mem_cons_of_mem c hx))]
      apply List.map_congr_left
      intro d hdmem
      rw [List.filter_cons]
      by_cases hdc : hamDist q c = d
      · subst hdc
        simp
      · have : (hamDist q c == d) = false := by simpa using hdc
        simp [Ne.symm hdc, this]

lemma queryRankingClasses_eq_filter (q N : ℕ) (t : Table)
    (h : ∀ c ∈ tableKeys t, hamDist q c ≤ N) :
    queryRankingClasses q N t =
      (List.range (N + 1)).map
        (fun d => (tableKeys t).filter (fun c => hamDist q c == d)) := by
  unfold queryRankingClasses
  have hrepl : List.replicate (N + 1) ([] : List ℕ) =
      (List.range (N + 1)).map (fun _ => []) := by
    rw [List.map_const']
    simp
  rw [hrepl, classesFold_eq_filter q N (tableKeys t) (fun _ => []) h]
  simp

lemma sum_ite_range_zero (d0 A : ℕ) :
    ∀ n, n ≤ d0 → ((List.range n).map (fun d => if d0 = d then A else 0)).sum = 0 := by
  intro n
  induction n with
  | zero => intro _; simp
  | succ m ih =>
      intro h
      rw [List.range_succ, List.map_append, List.sum_append]
      have hne : d0 ≠ m := by omega
      simp [ih (by omega), hne]

lemma sum_ite_range (d0 A n : ℕ) (h : d0 < n) :
    ((List.range n).map (fun d => if d0 = d then A else 0)).sum = A := by
  induction n with
  | zero => omega
  | succ m ih =>
      rw [List.range_succ, List.map_append, List.sum_append]
      rcases eq_or_lt_of_le (Nat.lt_succ_iff.mp h) with rfl | hlt
      · simp [sum_ite_range_zero d0 A d0 le_rfl]
      · have hne : d0 ≠ m := by omega
        simp [ih hlt, hne]

/-- The concatenation of the Hamming distance classes is a permutation of
the bucket codes. -/
lemma classes_flatten_perm (q N : ℕ) (codes : List ℕ)
    (h : ∀ c ∈ codes, hamDist q c ≤ N) :
    ((List.range (N + 1)).map
      (fun d => codes.filter (fun c => hamDist q c == d))).flatten.Perm codes := by
  rw [List.perm_iff_count]
  intro a
  rw [List.count_flatten, List.map_map]
  by_cases ha : a ∈ codes
  · have hda : hamDist q a ≤ N := h a ha
    have hterm : ∀ d : ℕ,
        List.count a (codes.filter (fun c => hamDist q c == d)) =
          if hamDist q a = d then List.count a codes else 0 := by
      intro d
      by_cases hd : hamDist q a = d
      · rw [if_pos hd]
        exact List.count_filter (by simp [hd])
      · rw [if_neg hd]
        apply List.count_eq_zero.mpr
        intro hmem
        exact hd (by simpa using (List.mem_filter.mp hmem).2)
    have : ((List.range (N + 1)).map
        (List.count a ∘ fun d => codes.filter (fun c => hamDist q c == d))) =
        (List.range (N + 1)).map (fun d => if hamDist q a = d then List.count a codes else 0) := by
      apply List.map_congr_left
      intro d _
      exact hterm d
    rw [this, sum_ite_range _ _ _ (by omega)]
  · have hz : List.count a codes = 0 := List.count_eq_zero.mpr ha
    rw [hz]
    have : ∀ d ∈ List.range (N + 1),
        (List.count a ∘ fun d => codes.filter (fun c => hamDist q c == d)) d = 0 := by
      intro d _
      apply List.count_eq_zero.mpr
      intro hmem
      exact ha (List.mem_filter.mp hmem).1
    rw [List.map_congr_left this]
    simp

/-- Within the flattened classes, Hamming distance to the query is
non-decreasing. -/
lemma classes_flatten_pairwise (q N : ℕ) (codes : List ℕ) :
    List.Pairwise (fun b1 b2 => hamDist q b1 ≤ hamDist q b2)
      ((List.range (N + 1)).map
        (fun d => codes.filter (fun c => hamDist q c == d))).flatten := by
  rw [List.pairwise_flatten]
  constructor
  · intro l hl
    rcases List.mem_map.mp hl with ⟨d, _, rfl⟩
    apply List.pairwise_of_forall_mem_list
    intro x hx y hy
    have hxd : hamDist q x = d := by simpa using (List.mem_filter.mp hx).2
    have hyd : hamDist q y = d := by simpa using (List.mem_filter.mp hy).2
    omega
  · rw [List.pairwise_map]
    apply (List.pairwise_lt_range (N + 1)).imp
    intro d e hde
    intro x hx y hy
    have hxd : hamDist q x = d := by simpa using (List.mem_filter.mp hx).2
    have hyd : hamDist q y = e := by simpa using (List.mem_filter.mp hy).2
    omega

/-- C2. With budget `maxNumBuckets >= 1` and a populated single-table
index (strictly sorted bucket map, all codes of `N` bits), `queryRanking`
probes exactly `min(maxNumBuckets, number of populated buckets)` distinct
populated buckets, and the Hamming distance from the query code to the
probed buckets is non-decreasing along the probe order. -/
theorem c2_queryRanking_spec (pcs omegas : List (List F)) (domin : ℕ → F) (N : ℕ)
    (hN : pcs.length = N) (t : Table) (maxNumBuckets : ℕ) (hmax : 1 ≤ maxNumBuckets)
    (hkeys : ∀ c ∈ tableKeys t, c < 2 ^ N)
    (hsorted : List.Pairwise (fun a b => a.1 < b.1) t) :
    (queryRankingProbes (getHashVal pcs omegas domin) N maxNumBuckets t).length =
        min maxNumBuckets t.length ∧
      (queryRankingProbes (getHashVal pcs omegas domin) N maxNumBuckets t).Nodup ∧
      (∀ b ∈ queryRankingProbes (getHashVal pcs omegas domin) N maxNumBuckets t,
        b ∈ tableKeys t) ∧
      List.Pairwise
        (fun b1 b2 => hamDist (getHashVal pcs omegas domin) b1 ≤
          hamDist (getHashVal pcs omegas domin) b2)
        (queryRankingProbes (getHashVal pcs omegas domin) N maxNumBuckets t) := by
  have hq : getHashVal pcs omegas domin < 2 ^ N := by
    rw [← hN]; exact getHashVal_lt_two_pow pcs omegas domin
  have hdists : ∀ c ∈ tableKeys t, hamDist (getHashVal pcs omegas domin) c ≤ N :=
    fun c hc => hamDist_le hq (hkeys c hc)
  have hnodupKeys : (tableKeys t).Nodup := by
    have : List.Pairwise (· < ·) (tableKeys t) := by
      unfold tableKeys
      rw [List.pairwise_map]
      exact hsorted
    exact this.imp (fun hab => Nat.ne_of_lt hab)
  unfold queryRankingProbes
  rw [queryRankingClasses_eq_filter _ N t hdists]
  have hperm := classes_flatten_perm (getHashVal pcs omegas domin) N (tableKeys t) hdists
  have hlen : ((List.range (N + 1)).map
      (fun d => (tableKeys t).filter
        (fun c => hamDist (getHashVal pcs omegas domin) c == d))).flatten.length =
      t.length := by
    rw [hperm.length_eq]
    simp [tableKeys]
  refine ⟨?_, ?_, ?_, ?_⟩
  · rw [List.length_take, hlen]
    omega
  · exact (hperm.symm.nodup hnodupKeys).sublist (List.take_sublist _ _)
  · intro b hb
    exact hperm.mem_iff.mp ((List.take_sublist _ _).subset hb)
  · exact (classes_flatten_pairwise _ N (tableKeys t)).sublist (List.take_sublist _ _)

/-- C2 witness: a concrete 1-bit two-bucket table probed with budget 1. -/
theorem c2_witness :
    ((([[1]] : List (List ℤ)).length = 1 ∧ (1 : ℕ) ≤ 1 ∧
        (∀ c ∈ tableKeys [(0, [10]), (1, [11])], c < 2 ^ 1) ∧
        List.Pairwise (fun a b => a.1 < b.1) ([(0, [10]), (1, [11])] : Table)) ∧
      ((queryRankingProbes (getHashVal (F := ℤ) [[1]] [[1]] (fun _ => 1)) 1 1
            [(0, [10]), (1, [11])]).length = min 1 ([(0, [10]), (1, [11])] : Table).length ∧
        (queryRankingProbes (getHashVal (F := ℤ) [[1]] [[1]] (fun _ => 1)) 1 1
            [(0, [10]), (1, [11])]).Nodup ∧
        (∀ b ∈ queryRankingProbes (getHashVal (F := ℤ) [[1]] [[1]] (fun _ => 1)) 1 1
            [(0, [10]), (1, [11])], b ∈ tableKeys [(0, [10]), (1, [11])]) ∧
        List.Pairwise
          (fun b1 b2 => hamDist (getHashVal (F := ℤ) [[1]] [[1]] (fun _ => 1)) b1 ≤
            hamDist (getHashVal (F := ℤ) [[1]] [[1]] (fun _ => 1)) b2)
          (queryRankingProbes (getHashVal (F := ℤ) [[1]] [[1]] (fun _ => 1)) 1 1
            [(0, [10]), (1, [11])]))) :=
  ⟨⟨by decide, by decide, by decide, by decide⟩,
    c2_queryRanking_spec [[1]] [[1]] (fun _ => 1) 1 (by decide) [(0, [10]), (1, [11])] 1
      (by decide) (by decide) (by decide)⟩

lemma unsignedToBools_bits (N c : ℕ) (hc : c < 2 ^ N) :
    ∃ l, unsignedToBools N c = some l ∧ l.length = N ∧ boolsToNat l = c := by
  have hd : (natToBits c).length ≤ N := natToBits_length_le hc
  rw [unsignedToBools, unsignedToBoolsLoop_spec N c (List.replicate N false) hc (by simp)]
  refine ⟨_, rfl, ?_, ?_⟩
  · simp
    omega
  · rw [List.take_replicate, List.drop_replicate, Nat.sub_self, List.replicate_zero,
      List.append_nil]
    have hmin : (N - (natToBits c).length) ⊓ N = N - (natToBits c).length := by omega
    rw [hmin, boolsToNat_replicate_false_append, boolsToNat_natToBits]

/-- The MSB-first packing and `Nat.testBit` agree: bit `i` of the list
(counted from the most significant end) is bit `length - 1 - i` of the
packed value. -/
lemma boolsToNat_testBit :
    ∀ (l : List Bool) (i : ℕ), i < l.length →
      (boolsToNat l).testBit (l.length - 1 - i) = l.getD i false := by
  intro l
  induction l with
  | nil => intro i hi; simp at hi
  | cons b t ih =>
      intro i hi
      rw [boolsToNat_cons, Nat.mul_comm]
      rcases i with _ | j
      · have := Nat.testBit_mul_pow_two_add (if b then 1 else 0) (boolsToNat_lt t)
          t.length
        simp only [List.length_cons, Nat.add_sub_cancel, Nat.sub_zero, this]
        rcases b <;> simp
      · have hj : j < t.length := by simpa using Nat.lt_of_succ_lt_succ hi
        have hidx : t.length + 1 - 1 - (j + 1) = t.length - 1 - j := by omega
        have hlt : t.length - 1 - j < t.length := by omega
        have := Nat.testBit_mul_pow_two_add (if b then 1 else 0) (boolsToNat_lt t)
          (t.length - 1 - j)
        simp only [List.length_cons, hidx, this, if_pos hlt]
        exact ih j hj

/-- Loss of one bucket in `queryRankingByLoss` as the source computes it:
sum of `fabs(queryFloats[bIdx])` over the positions `bIdx` below
`queryBits.size()` where the query bit and the bucket bit differ. -/
def lossOf (queryBits : List Bool) (queryFloats : List F) (bucketBits : List Bool) : F :=
  ((List.range queryBits.length).map (fun i =>
    if queryBits.getD i false ≠ bucketBits.getD i false
    then |queryFloats.getD i 0| else 0)).sum

/-- Loss formula as the specification states it, with the bucket bit
taken directly from the binary representation of the bucket code
(MSB-first, bit `i` of an `N`-bit code is `testBit (N - 1 - i)`). -/
def specLoss (N : ℕ) (queryBits : List Bool) (queryFloats : List F) (c : ℕ) : F :=
  ((List.range N).map (fun i =>
    if queryBits.getD i false ≠ c.testBit (N - 1 - i)
    then |queryFloats.getD i 0| else 0)).sum

lemma lossOf_eq_specLoss (N c : ℕ) (hc : c < 2 ^ N) (qb : List Bool) (qf : List F)
    (hqb : qb.length = N) :
    lossOf qb qf ((unsignedToBools N c).getD []) = specLoss N qb qf c := by
  obtain ⟨l, hsome, hlen, hval⟩ := unsignedToBools_bits N c hc
  rw [hsome]
  simp only [Option.getD_some]
  unfold lossOf specLoss
  rw [hqb]
  congr 1
  apply List.map_congr_left
  intro i hi
  have hiN : i < N := List.mem_range.mp hi
  have hbit := boolsToNat_testBit l i (by omega)
  rw [hval, hlen] at hbit
  rw [hbit]

/-- Comparator of the `std::sort` call in `queryRankingByLoss` (ascending
by loss; ties are left unordered by `std::sort`, so the model uses a
stable sort producing one valid outcome). -/
def lossLE (a b : F × ℕ) : Prop := a.1 ≤ b.1

instance : DecidableRel (lossLE (F := F)) :=
  fun a b => inferInstanceAs (Decidable (a.1 ≤ b.1))

instance : IsTotal (F × ℕ) lossLE := ⟨fun a b => le_total a.1 b.1⟩

instance : IsTrans (F × ℕ) lossLE := ⟨fun _ _ _ => le_trans⟩

/-- Loss computation loop of `queryRankingByLoss`: one `(loss, code)`
pair per populated bucket, in map iteration order. -/
def queryRankingByLossPairs (pcs omegas : List (List F)) (domin : ℕ → F) (N : ℕ)
    (t : Table) : List (F × ℕ) :=
  t.map (fun e =>
    (lossOf (getHashBits pcs omegas domin) (getHashFloats pcs omegas domin)
      ((unsignedToBools N e.1).getD []), e.1))

/-- Probe sequence of `queryRankingByLoss`: the pairs sorted ascending by
loss, truncated to `min(dstToBks.size(), maxNumBuckets)` buckets. -/
def queryRankingByLossProbes (pcs omegas : List (List F)) (domin : ℕ → F) (N : ℕ)
    (maxNumBuckets : ℕ) (t : Table) : List (F × ℕ) :=
  (List.insertionSort lossLE (queryRankingByLossPairs pcs omegas domin N t)).take
    (min t.length maxNumBuckets)

/-- C7. For a populated single-table index (all codes of `N` bits) and
budget `maxNumBuckets >= 1`, every probed pair of `queryRankingByLoss`
carries the loss equal to the sum, over bit positions where the bucket
bit differs from the query bit, of the absolute value of the query
signed projection at that bit; exactly
`min(maxNumBuckets, number of populated buckets)` buckets are probed, in
ascending loss order (any bucket probed earlier has loss at most that of
any bucket probed later). -/
theorem c7_queryRankingByLoss_spec (pcs omegas : List (List F)) (domin : ℕ → F)
    (N : ℕ) (hN : pcs.length = N) (t : Table) (maxNumBuckets : ℕ)
    (hmax : 1 ≤ maxNumBuckets) (hkeys : ∀ c ∈ tableKeys t, c < 2 ^ N) :
    (queryRankingByLossProbes pcs omegas domin N maxNumBuckets t).length =
        min maxNumBuckets t.length ∧
      (∀ p ∈ queryRankingByLossProbes pcs omegas domin N maxNumBuckets t,
        p.1 = specLoss N (getHashBits pcs omegas domin)
            (getHashFloats pcs omegas domin) p.2 ∧
          p.2 ∈ tableKeys t) ∧
      List.Pairwise (fun p1 p2 => p1.1 ≤ p2.1)
        (queryRankingByLossProbes pcs omegas domin N maxNumBuckets t) := by
  have hperm := List.perm_insertionSort lossLE
    (queryRankingByLossPairs pcs omegas domin N t)
  refine ⟨?_, ?_, ?_⟩
  · unfold queryRankingByLossProbes
    rw [List.length_take, hperm.length_eq]
    unfold queryRankingByLossPairs
    rw [List.length_map]
    omega
  · intro p hp
    have hmem : p ∈ queryRankingByLossPairs pcs omegas domin N t :=
      hperm.mem_iff.mp ((List.take_sublist _ _).subset hp)
    rcases List.mem_map.mp hmem with ⟨e, het, rfl⟩
    have hcode : e.1 ∈ tableKeys t := List.mem_map.mpr ⟨e, het, rfl⟩
    constructor
    · exact lossOf_eq_specLoss N e.1 (hkeys e.1 hcode) _ _
        (by rw [getHashBits_length, hN])
    · exact hcode
  · have hsorted := List.sorted_insertionSort lossLE
      (queryRankingByLossPairs pcs omegas domin N t)
    exact (hsorted.sublist (List.take_sublist _ _)).imp (fun hab => hab)

/-- C7 witness: a concrete 1-bit two-bucket table probed with budget 2. -/
theorem c7_witness :
    ((([[1]] : List (List ℤ)).length = 1 ∧ (1 : ℕ) ≤ 2 ∧
        ∀ c ∈ tableKeys [(0, [10]), (1, [11])], c < 2 ^ 1) ∧
      ((queryRankingByLossProbes (F := ℤ) [[1]] [[1]] (fun _ => 1) 1 2
            [(0, [10]), (1, [11])]).length =
          min 2 ([(0, [10]), (1, [11])] : Table).length ∧
        (∀ p ∈ queryRankingByLossProbes (F := ℤ) [[1]] [[1]] (fun _ => 1) 1 2
            [(0, [10]), (1, [11])],
          p.1 = specLoss 1 (getHashBits (F := ℤ) [[1]] [[1]] (fun _ => 1))
              (getHashFloats (F := ℤ) [[1]] [[1]] (fun _ => 1)) p.2 ∧
            p.2 ∈ tableKeys [(0, [10]), (1, [11])]) ∧
        List.Pairwise (fun p1 p2 => p1.1 ≤ p2.1)
          (queryRankingByLossProbes (F := ℤ) [[1]] [[1]] (fun _ => 1) 1 2
            [(0, [10]), (1, [11])]))) :=
  ⟨⟨by decide, by decide, by decide⟩,
    c7_queryRankingByLoss_spec [[1]] [[1]] (fun _ => 1) 1 (by decide)
      [(0, [10]), (1, [11])] 2 (by decide) (by decide)⟩

/-- One 4-byte word of the persisted binary layout: either an `unsigned`
value or a `float` value. -/
inductive Word (F : Type) where
  | u (n : ℕ)
  | f (x : F)
deriving DecidableEq

/-- Bucket section written by `save` for one table: for every populated
bucket in map key order, its code, its posting-list length, and the raw
identifier list. -/
def saveBuckets (t : Table) : List (Word F) :=
  t.flatMap (fun e => Word.u e.1 :: Word.u e.2.length :: e.2.map Word.u)

/-- Matrix section written by `save` for one table: for `j` in `[0, N)`,
row `j` of the projection matrix (`D` floats) then row `j` of the
rotation matrix (`N` floats).  Both matrices of a well-formed table have
exactly `N` rows, so the loop is the simultaneous traversal of the two
row lists. -/
def saveRows : List (List F) → List (List F) → List (Word F)
  | p :: ps, o :: os => p.map Word.f ++ o.map Word.f ++ saveRows ps os
  | _, _ => []

/-- Per-table section written by `save` for table `i`: the auxiliary
random-index array (`N` unsigneds), the bucket count, the buckets, then
the two matrices. -/
def saveTableAt (rnds : List (List ℕ)) (tbls : List Table)
    (pcss omss : List (List (List F))) (i : ℕ) : List (Word F) :=
  (rnds.getD i []).map Word.u ++
    Word.u (tbls.getD i []).length ::
      (saveBuckets (tbls.getD i []) ++ saveRows (pcss.getD i []) (omss.getD i []))

/-- Member function `save`: parameter scalars `M, L, D, N, S`, then the
per-table sections for tables `0 .. param.L - 1`. -/
def save (st : IndexState F) : List (Word F) :=
  Word.u st.param.M :: Word.u st.param.L :: Word.u st.param.D :: Word.u st.param.N ::
    Word.u st.param.S ::
      (List.range st.param.L).flatMap
        (saveTableAt st.rndArray st.tables st.pcsAll st.omegasAll)

/-- Simultaneous-recursion form of the table sections, used to prove the
round trip (equal to the indexed form when all four lists have length
`param.L`). -/
def saveTables : List (List ℕ) → List Table → List (List (List F)) →
    List (List (List F)) → List (Word F)
  | r :: rs, t :: ts, p :: ps, o :: os =>
      (r.map Word.u ++
        Word.u t.length :: (saveBuckets t ++ saveRows p o)) ++ saveTables rs ts ps os
  | _, _, _, _ => []

/-- Read one `unsigned` from the file. -/
def readU : List (Word F) → Option (ℕ × List (Word F))
  | Word.u n :: ws => some (n, ws)
  | _ => none

/-- Read one `float` from the file. -/
def readF : List (Word F) → Option (F × List (Word F))
  | Word.f x :: ws => some (x, ws)
  | _ => none

/-- Read `k` unsigneds from the file. -/
def readUs : ℕ → List (Word F) → Option (List ℕ × List (Word F))
  | 0, ws => some ([], ws)
  | k + 1, ws => do
      let r1 ← readU ws
      let r2 ← readUs k r1.2
      some (r1.1 :: r2.1, r2.2)

/-- Read `k` floats from the file. -/
def readFs : ℕ → List (Word F) → Option (List F × List (Word F))
  | 0, ws => some ([], ws)
  | k + 1, ws => do
      let r1 ← readF ws
      let r2 ← readFs k r1.2
      some (r1.1 :: r2.1, r2.2)

/-- Map write `tables[i][target] = ids` performed by `load` on the
key-sorted association list (create or overwrite). -/
def mapSet : Table → ℕ → List ℕ → Table
  | [], c, ids => [(c, ids)]
  | (c0, l0) :: rest, c, ids =>
      if c < c0 then (c, ids) :: (c0, l0) :: rest
      else if c = c0 then (c0, ids) :: rest
      else (c0, l0) :: mapSet rest c ids

/-- Bucket loop of `load` for one table: read `count` buckets, each as a
code, a length, and that many identifiers. -/
def loadBucketsAux : ℕ → Table → List (Word F) → Option (Table × List (Word F))
  | 0, t, ws => some (t, ws)
  | j + 1, t, ws => do
      let rc ← readU ws
      let rl ← readU rc.2
      let rids ← readUs rl.1 rl.2
      loadBucketsAux j (mapSet t rc.1 rids.1) rids.2

/-- Matrix loop of `load` for one table: `n` times, a projection row of
`D` floats then a rotation row of `N` floats. -/
def loadRows : ℕ → ℕ → ℕ → List (Word F) →
    Option ((List (List F) × List (List F)) × List (Word F))
  | 0, _, _, ws => some (([], []), ws)
  | j + 1, D, N, ws => do
      let rp ← readFs D ws
      let ro ← readFs N rp.2
      let rest ← loadRows j D N ro.2
      some ((rp.1 :: rest.1.1, ro.1 :: rest.1.2), rest.2)

/-- Per-table data accumulated by the load loop. -/
structure TableData (F : Type) where
  rnd : List (List ℕ)
  tbls : List Table
  pcs : List (List (List F))
  oms : List (List (List F))
deriving DecidableEq

/-- Table loop of `load`: for each of the `L` tables, the random-index
array, the bucket count, the buckets, then the matrices. -/
def loadTablesAux : ℕ → ℕ → ℕ → List (Word F) → Option (TableData F × List (Word F))
  | 0, _, _, ws => some (⟨[], [], [], []⟩, ws)
  | i + 1, N, D, ws => do
      let rrnd ← readUs N ws
      let rcount ← readU rrnd.2
      let rt ← loadBucketsAux rcount.1 [] rcount.2
      let rpo ← loadRows N D N rt.2
      let rest ← loadTablesAux i N D rpo.2
      some (⟨rrnd.1 :: rest.1.rnd, rt.1 :: rest.1.tbls,
        rpo.1.1 :: rest.1.pcs, rpo.1.2 :: rest.1.oms⟩, rest.2)

/-- Member function `load` applied to a fresh index object: the five
parameter scalars `M, L, D, N, S` are read (the training iteration count
`I` and the mean/STD statistics are not part of the file; in the fresh
object they are 0 and empty respectively), then the `L` table sections. -/
def loadIndex (ws : List (Word F)) : Option (IndexState F × List (Word F)) := do
  let rm ← readU ws
  let rl ← readU rm.2
  let rd ← readU rl.2
  let rn ← readU rd.2
  let rs ← readU rn.2
  let rtd ← loadTablesAux rl.1 rn.1 rd.1 rs.2
  some ({ param := ⟨rm.1, rl.1, rd.1, rn.1, rs.1, 0⟩, pcsAll := rtd.1.pcs,
          omegasAll := rtd.1.oms, rndArray := rtd.1.rnd, tables := rtd.1.tbls,
          meanAndSTD := [] }, rtd.2)

lemma readUs_append (l : List ℕ) :
    ∀ ws : List (Word F), readUs l.length (l.map Word.u ++ ws) = some (l, ws) := by
  induction l with
  | nil => intro ws; simp [readUs]
  | cons n rest ih =>
      intro ws
      simp [readUs, readU, ih ws]

lemma readFs_append (l : List F) :
    ∀ ws : List (Word F), readFs l.length (l.map Word.f ++ ws) = some (l, ws) := by
  induction l with
  | nil => intro ws; simp [readFs]
  | cons x rest ih =>
      intro ws
      simp [readFs, readF, ih ws]

lemma mapSet_append : ∀ (t : Table) (c : ℕ) (ids : List ℕ),
    (∀ e ∈ t, e.1 < c) → mapSet t c ids = t ++ [(c, ids)] := by
  intro t
  induction t with
  | nil => intro c ids _; rfl
  | cons e rest ih =>
      intro c ids h
      rcases e with ⟨c0, l0⟩
      have hc0 : c0 < c := h (c0, l0) (List.mem_cons_self _ _)
      unfold mapSet
      rw [if_neg (by omega), if_neg (by omega)]
      rw [ih c ids (fun e he => h e (List.mem_cons_of_mem _ he))]
      simp

lemma loadBucketsAux_save : ∀ (t acc : Table) (ws : List (Word F)),
    List.Pairwise (fun a b => a.1 < b.1) (acc ++ t) →
    loadBucketsAux t.length acc (saveBuckets t ++ ws) = some (acc ++ t, ws) := by
  intro t
  induction t with
  | nil => intro acc ws _; simp [saveBuckets, loadBucketsAux]
  | cons e rest ih =>
      intro acc ws hpw
      rcases e with ⟨c, ids⟩
      have hacc : ∀ x ∈ acc, x.1 < c := by
        rcases List.pairwise_append.mp hpw with ⟨_, _, hcross⟩
        intro x hx
        exact hcross x hx (c, ids) (List.mem_cons_self _ _)
      have hpw2 : List.Pairwise (fun a b => a.1 < b.1) ((acc ++ [(c, ids)]) ++ rest) := by
        simpa using hpw
      have hrec := ih (acc ++ [(c, ids)]) ws hpw2
      show loadBucketsAux (rest.length + 1) acc
          ((Word.u c :: Word.u ids.length :: ids.map Word.u ++ saveBuckets rest) ++ ws) =
        some (acc ++ (c, ids) :: rest, ws)
      simp only [loadBucketsAux, List.cons_append, List.append_assoc]
      simp [readU, readUs_append, mapSet_append acc c ids hacc, hrec]

lemma loadRows_save : ∀ (ps os : List (List F)) (D N : ℕ) (ws : List (Word F)),
    ps.length = os.length →
    (∀ p ∈ ps, p.length = D) → (∀ o ∈ os, o.length = N) →
    loadRows ps.length D N (saveRows ps os ++ ws) = some ((ps, os), ws) := by
  intro ps
  induction ps with
  | nil =>
      intro os D N ws hlen _ _
      have : os = [] := by
        rcases os with _ | _
        · rfl
        · simp at hlen
      subst this
      rfl
  | cons p ps ih =>
      intro os D N ws hlen hp ho
      rcases os with _ | ⟨o, os⟩
      · simp at hlen
      · have hpD : p.length = D := hp p (List.mem_cons_self _ _)
        have hoN : o.length = N := ho o (List.mem_cons_self _ _)
        have hlen2 : ps.length = os.length := by simpa using hlen
        have hrec := ih os D N ws hlen2 (fun x hx => hp x (List.mem_cons_of_mem _ hx))
          (fun x hx => ho x (List.mem_cons_of_mem _ hx))
        have hp2 : readFs (F := F) D
            (p.map Word.f ++ (o.map Word.f ++ (saveRows ps os ++ ws))) =
            some (p, o.map Word.f ++ (saveRows ps os ++ ws)) := by
          rw [← hpD]; exact readFs_append p _
        have ho2 : readFs (F := F) N (o.map Word.f ++ (saveRows ps os ++ ws)) =
            some (o, saveRows ps os ++ ws) := by
          rw [← hoN]; exact readFs_append o _
        show loadRows (ps.length + 1) D N
            ((p.map Word.f ++ o.map Word.f ++ saveRows ps os) ++ ws) =
          some ((p :: ps, o :: os), ws)
        simp [loadRows, List.append_assoc, hp2, ho2, hrec]

lemma saveTables_eq_flatMap :
    ∀ (L : ℕ) (rnds : List (List ℕ)) (tbls : List Table)
      (pcss omss : List (List (List F))),
      rnds.length = L → tbls.length = L → pcss.length = L → omss.length = L →
      (List.range L).flatMap (saveTableAt rnds tbls pcss omss) =
        saveTables rnds tbls pcss omss := by
  intro L
  induction L with
  | zero =>
      intro rnds tbls pcss omss h1 h2 h3 h4
      rw [List.length_eq_zero] at h1 h2 h3 h4
      subst h1; subst h2; subst h3; subst h4
      simp [saveTables]
  | succ n ih =>
      intro rnds tbls pcss omss h1 h2 h3 h4
      rcases rnds with _ | ⟨r, rs⟩; · simp at h1
      rcases tbls with _ | ⟨t, ts⟩; · simp at h2
      rcases pcss with _ | ⟨p, ps⟩; · simp at h3
      rcases omss with _ | ⟨o, os⟩; · simp at h4
      rw [List.range_succ_eq_map, List.flatMap_cons, List.flatMap_map]
      have hfun : (fun a => saveTableAt (r :: rs) (t :: ts) (p :: ps) (o :: os) a.succ) =
          saveTableAt rs ts ps os := by
        funext i
        simp [saveTableAt]
      rw [hfun, ih rs ts ps os (by simpa using h1) (by simpa using h2)
        (by simpa using h3) (by simpa using h4)]
      show saveTableAt (r :: rs) (t :: ts) (p :: ps) (o :: os) 0 ++ _ = _
      simp [saveTableAt, saveTables]

lemma loadTablesAux_save :
    ∀ (rnds : List (List ℕ)) (tbls : List Table) (pcss omss : List (List (List F)))
      (N D : ℕ) (ws : List (Word F)),
      tbls.length = rnds.length → pcss.length = rnds.length →
      omss.length = rnds.length →
      (∀ r ∈ rnds, r.length = N) →
      (∀ t ∈ tbls, List.Pairwise (fun a b => a.1 < b.1) t) →
      (∀ m ∈ pcss, m.length = N ∧ ∀ row ∈ m, row.length = D) →
      (∀ m ∈ omss, m.length = N ∧ ∀ row ∈ m, row.length = N) →
      loadTablesAux rnds.length N D (saveTables rnds tbls pcss omss ++ ws) =
        some (⟨rnds, tbls, pcss, omss⟩, ws) := by
  intro rnds
  induction rnds with
  | nil =>
      intro tbls pcss omss N D ws h1 h2 h3 _ _ _ _
      have e1 : tbls = [] := List.length_eq_zero.mp (by simpa using h1)
      have e2 : pcss = [] := List.length_eq_zero.mp (by simpa using h2)
      have e3 : omss = [] := List.length_eq_zero.mp (by simpa using h3)
      subst e1; subst e2; subst e3
      rfl
  | cons r rs ih =>
      intro tbls pcss omss N D ws h1 h2 h3 hr ht hp ho
      rcases tbls with _ | ⟨t, ts⟩; · simp at h1
      rcases pcss with _ | ⟨p, ps⟩; · simp at h2
      rcases omss with _ | ⟨o, os⟩; · simp at h3
      have hrN : r.length = N := hr r (List.mem_cons_self _ _)
      have hpN : p.length = N := (hp p (List.mem_cons_self _ _)).1
      have hoN : o.length = N := (ho o (List.mem_cons_self _ _)).1
      have hpo : p.length = o.length := by omega
      have htpw := ht t (List.mem_cons_self _ _)
      have hrec := ih ts ps os N D ws (by simpa using h1) (by simpa using h2)
        (by simpa using h3) (fun x hx => hr x (List.mem_cons_of_mem _ hx))
        (fun x hx => ht x (List.mem_cons_of_mem _ hx))
        (fun x hx => hp x (List.mem_cons_of_mem _ hx))
        (fun x hx => ho x (List.mem_cons_of_mem _ hx))
      have hread : readUs (F := F) N
          (r.map Word.u ++ (Word.u t.length ::
            (saveBuckets t ++ (saveRows p o ++ (saveTables rs ts ps os ++ ws))))) =
          some (r, Word.u t.length ::
            (saveBuckets t ++ (saveRows p o ++ (saveTables rs ts ps os ++ ws)))) := by
        rw [← hrN]; exact readUs_append r _
      have hbuckets := loadBucketsAux_save t []
        (saveRows p o ++ (saveTables rs ts ps os ++ ws)) (by simpa using htpw)
      have hrows : loadRows (F := F) N D N
          (saveRows p o ++ (saveTables rs ts ps os ++ ws)) =
          some ((p, o), saveTables rs ts ps os ++ ws) := by
        nth_rewrite 1 [← hpN]
        exact loadRows_save p o D N _ hpo (hp p (List.mem_cons_self _ _)).2
          (ho o (List.mem_cons_self _ _)).2
      show loadTablesAux (rs.length + 1) N D
          (saveTables (r :: rs) (t :: ts) (p :: ps) (o :: os) ++ ws) =
        some (⟨r :: rs, t :: ts, p :: ps, o :: os⟩, ws)
      simp only [saveTables, List.cons_append, List.append_assoc]
      simp [loadTablesAux, hread, readU, hbuckets, hrows, hrec]

/-- Well-formedness of an index as established by `reset`/`train`/`load`:
all four per-table arrays have length `param.L`, rows have their declared
widths, and the bucket maps are strictly key-sorted (the `std::map`
invariant). -/
def WFIndex (st : IndexState F) : Prop :=
  st.tables.length = st.param.L ∧
  st.rndArray.length = st.param.L ∧
  st.pcsAll.length = st.param.L ∧
  st.omegasAll.length = st.param.L ∧
  (∀ r ∈ st.rndArray, r.length = st.param.N) ∧
  (∀ t ∈ st.tables, List.Pairwise (fun a b => a.1 < b.1) t) ∧
  (∀ m ∈ st.pcsAll, m.length = st.param.N ∧ ∀ row ∈ m, row.length = st.param.D) ∧
  (∀ m ∈ st.omegasAll, m.length = st.param.N ∧ ∀ row ∈ m, row.length = st.param.N)

/-- C3. For every well-formed index whose table count equals `param.L`,
loading the file produced by `save` into a fresh object consumes the
whole file and yields an index with element-wise identical parameters
`M, L, D, N, S`, bucket contents, projection matrices, rotation matrices
and random-index arrays; re-saving the loaded index reproduces the
byte-identical file. -/
theorem c3_save_load_roundtrip (st : IndexState F) (h : WFIndex st) :
    loadIndex (save st) =
      some ({ param := ⟨st.param.M, st.param.L, st.param.D, st.param.N, st.param.S, 0⟩,
              pcsAll := st.pcsAll, omegasAll := st.omegasAll,
              rndArray := st.rndArray, tables := st.tables, meanAndSTD := [] }, []) ∧
    save { param := ⟨st.param.M, st.param.L, st.param.D, st.param.N, st.param.S, 0⟩,
           pcsAll := st.pcsAll, omegasAll := st.omegasAll,
           rndArray := st.rndArray, tables := st.tables,
           meanAndSTD := ([] : List (List F)) } = save st := by
  obtain ⟨h1, h2, h3, h4, h5, h6, h7, h8⟩ := h
  constructor
  · have hbody : (List.range st.param.L).flatMap
        (saveTableAt st.rndArray st.tables st.pcsAll st.omegasAll) =
        saveTables st.rndArray st.tables st.pcsAll st.omegasAll := by
      rw [← h2]
      exact saveTables_eq_flatMap st.rndArray.length st.rndArray st.tables st.pcsAll
        st.omegasAll rfl (by omega) (by omega) (by omega)
    have hload := loadTablesAux_save st.rndArray st.tables st.pcsAll st.omegasAll
      st.param.N st.param.D [] (by omega) (by omega) (by omega) h5 h6 h7 h8
    rw [h2] at hload
    rw [List.append_nil] at hload
    unfold save loadIndex
    rw [hbody]
    simp [readU, hload]
  · rfl

/-- C3 witness: round trip of a concrete well-formed one-table index. -/
theorem c3_witness :
    WFIndex wIdx ∧
      (loadIndex (save wIdx) =
          some ({ param := ⟨wIdx.param.M, wIdx.param.L, wIdx.param.D, wIdx.param.N,
                    wIdx.param.S, 0⟩,
                  pcsAll := wIdx.pcsAll, omegasAll := wIdx.omegasAll,
                  rndArray := wIdx.rndArray, tables := wIdx.tables,
                  meanAndSTD := [] }, []) ∧
        save ({ param := ⟨wIdx.param.M, wIdx.param.L, wIdx.param.D, wIdx.param.N,
                  wIdx.param.S, 0⟩,
                pcsAll := wIdx.pcsAll, omegasAll := wIdx.omegasAll,
                rndArray := wIdx.rndArray, tables := wIdx.tables,
                meanAndSTD := ([] : List (List ℤ)) }) = save wIdx) :=
  ⟨by unfold WFIndex; decide, c3_save_load_roundtrip wIdx (by unfold WFIndex; decide)⟩

lemma getD_take {α : Type} (l : List α) (n i : ℕ) (d : α) (h : i < n) :
    (l.take n).getD i d = l.getD i d := by
  rw [List.getD_eq_getElem?_getD, List.getD_eq_getElem?_getD, List.getElem?_take]
  simp [h]

/-- C6 (amended). `save` writes the parameter scalars and then exactly
the sections of tables `0 .. param.L - 1`: the output only depends on the
first `param.L` tables, so tables beyond index `param.L - 1` (as created
by a rehash fan-out) are not persisted. -/
theorem c6_save_truncates_to_L (st : IndexState F) :
    save st = save { st with tables := st.tables.take st.param.L } := by
  have hbody : (List.range st.param.L).flatMap
      (saveTableAt st.rndArray (st.tables.take st.param.L) st.pcsAll st.omegasAll) =
      (List.range st.param.L).flatMap
        (saveTableAt st.rndArray st.tables st.pcsAll st.omegasAll) := by
    rw [List.flatMap_def, List.flatMap_def]
    apply congrArg
    apply List.map_congr_left
    intro i hi
    have hiL : i < st.param.L := List.mem_range.mp hi
    unfold saveTableAt
    rw [getD_take st.tables st.param.L i [] hiL]
  unfold save
  show _ = Word.u st.param.M :: Word.u st.param.L :: Word.u st.param.D ::
    Word.u st.param.N :: Word.u st.param.S ::
      (List.range st.param.L).flatMap
        (saveTableAt st.rndArray (st.tables.take st.param.L) st.pcsAll st.omegasAll)
  rw [hbody]

/-- Index with a second table that `save` never writes (configured
`L = 1`, rehashed to two tables). -/
def wIdxA : IndexState ℤ :=
  { param := ⟨8, 1, 1, 1, 1, 1⟩, pcsAll := [[[1]]], omegasAll := [[[1]]],
    rndArray := [[0]], tables := [[(0, [5])], [(2, [7])]], meanAndSTD := [] }

/-- Same index as `wIdxA` except for the contents of table 1. -/
def wIdxB : IndexState ℤ :=
  { param := ⟨8, 1, 1, 1, 1, 1⟩, pcsAll := [[[1]]], omegasAll := [[[1]]],
    rndArray := [[0]], tables := [[(0, [5])], [(3, [9])]], meanAndSTD := [] }

/-- C6 (counterexample). The claim states that `save` writes the bucket
contents of every table existing at save time.  Two reachable states
with `param.L = 1` and two live tables that differ only in the nonempty
contents of table 1 produce the same file, so table 1 is not written. -/
theorem c6_counterexample :
    save wIdxA = save wIdxB ∧ wIdxA.tables ≠ wIdxB.tables ∧
      wIdxA.tables.length = 2 ∧ wIdxA.tables.getD 1 [] ≠ [] ∧
      wIdxB.tables.getD 1 [] ≠ [] := by
  decide
